import Mathlib

/-!
Verification of the magma_ezr experiment-orchestration scripts.

The definitions below are a shallow embedding of `scripts/build_dataset.py`
and `scripts/ezr_driver.py`: pure Python functions become Lean functions,
the filesystem becomes an explicit map from labels to optional metrics
records, and the campaign runner becomes an oracle parameter.  Python ints
are `Nat`, Python floats that only flow through comparisons are `ℚ`.
-/

namespace MagmaEzr

/-- A metrics record as written to `results_dir/<label>/metrics.json`
(`build_dataset.py`).  `bitmap_cvg_pct` and `execs_per_sec` are floats in
the source; they are only ever copied or compared, so `ℚ` models them. -/
structure Metrics where
  bitmap_cvg_pct : ℚ
  paths_total : Nat
  execs_done : Nat
  execs_per_sec : ℚ
  bugs_triggered : Nat
  bugs_reached : Nat
deriving DecidableEq

/-- The results directory: for each label, the parsed contents of
`results_dir/<label>/metrics.json`, or `none` when the file is absent or
fails to parse (`json.load` raising is caught and treated as incomplete). -/
abbrev FS := String → Option Metrics

/-- `check_combo_complete(label)` from `build_dataset.py` (lines 247-271):
missing/unreadable metrics file means incomplete; `execs_done == 0` means
incomplete; `paths_total == 0 and execs_done < 100` means incomplete;
otherwise the combination has valid results. -/
def check_combo_complete (m? : Option Metrics) : Bool :=
  match m? with
  | none => false
  | some m =>
    if m.execs_done = 0 then false
    else if m.paths_total = 0 && decide (m.execs_done < 100) then false
    else true

/-- C3: a metrics record with `execs_done = 0` is classified incomplete by
`check_combo_complete`, whatever its other fields hold. -/
theorem execs_done_zero_incomplete (m : Metrics) (h : m.execs_done = 0) :
    check_combo_complete (some m) = false := by
  simp [check_combo_complete, h]

theorem execs_done_zero_incomplete_witness :
    check_combo_complete (some ⟨(33 : ℚ)/2, 5000, 0, 10, 3, 4⟩) = false :=
  execs_done_zero_incomplete ⟨(33 : ℚ)/2, 5000, 0, 10, 3, 4⟩ rfl

/-- C10: `check_combo_complete` accepts a parsed metrics record exactly when
`execs_done > 0` and (`paths_total > 0` or `execs_done ≥ 100`): the check is
strictly stricter than the zero-execution rule alone. -/
theorem check_combo_complete_iff (m : Metrics) :
    check_combo_complete (some m) = true ↔
      0 < m.execs_done ∧ (0 < m.paths_total ∨ 100 ≤ m.execs_done) := by
  simp only [check_combo_complete]
  by_cases h0 : m.execs_done = 0 <;>
    by_cases h1 : m.paths_total = 0 <;>
    by_cases h2 : m.execs_done < 100 <;>
    simp [h0, h1, h2] <;> omega

/-- The persisted state artifact `dataset_state.json` (`build_dataset.py`
lines 54-66).  Timestamps are abstract `Nat` ticks. -/
structure DState where
  completed : List String
  in_progress : Option String
  start_time : Nat
  last_update : Option Nat
  total_combinations : Nat
  time_budget_minutes : Nat
deriving DecidableEq

/-- The state `load_state` creates when no state file exists. -/
def fresh_state (t : Nat) : DState :=
  { completed := [], in_progress := none, start_time := t, last_update := none,
    total_combinations := 32, time_budget_minutes := 20 }

/-- The resume logic of `main` (lines 339-352): if `in_progress` names a
label not yet in `completed` and `check_combo_complete` validates it, the
label is promoted to `completed` and `in_progress` is cleared (then saved);
otherwise the state is left as is and the label is re-run by the loop. -/
def resume_step (fs : FS) (s : DState) : DState :=
  match s.in_progress with
  | none => s
  | some l =>
    if l ∈ s.completed then s
    else if check_combo_complete (fs l) then
      { s with completed := l :: s.completed, in_progress := none }
    else s

/-- Externally visible actions of the scheduling loop: a durable
`save_state` of a given snapshot, or the launch of `run_campaign` on a
label. -/
inductive Event where
  | save (s : DState)
  | run (l : String)
deriving DecidableEq

/-- The campaign runner boundary: given the label and the current results
directory, it returns the success flag of `run_campaign` and the results
directory after the run (the runner may write `metrics.json` files). -/
abbrev Runner := String → FS → Bool × FS

/-- The scheduling loop of `main` (lines 355-388) over the ordered list of
combination labels.  A label already in `completed` is skipped.  Otherwise
the state with `in_progress := label` is saved, the runner is launched, and
on resolution the state is updated (completed on success + valid results,
else just cleared) and saved again.  Returns the final state, the final
results directory, and the trace of saves and runner launches. -/
def run_loop (runner : Runner) : List String → FS → DState → DState × FS × List Event
  | [], fs, s => (s, fs, [])
  | l :: rest, fs, s =>
    if l ∈ s.completed then run_loop runner rest fs s
    else
      let s1 : DState := { s with in_progress := some l }
      let res := runner l fs
      let s2 : DState :=
        if res.1 && check_combo_complete (res.2 l) then
          { s1 with completed := l :: s1.completed, in_progress := none }
        else { s1 with in_progress := none }
      let r := run_loop runner rest res.2 s2
      (r.1, r.2.1, Event.save s1 :: Event.run l :: Event.save s2 :: r.2.2)

/-- The loop never shrinks the completed set. -/
theorem run_loop_completed_mono (runner : Runner) (combos : List String) :
    ∀ fs s l, l ∈ s.completed → l ∈ (run_loop runner combos fs s).1.completed := by
  induction combos with
  | nil => intro fs s l h; simpa [run_loop] using h
  | cons c rest ih =>
    intro fs s l h
    by_cases hc : c ∈ s.completed
    · simpa [run_loop, hc] using ih fs s l h
    · simp only [run_loop, hc, if_false]
      refine ih _ _ l ?_
      split
      · simpa using Or.inr h
      · simpa using h

/-- A label in `completed` is never launched by the loop. -/
theorem run_loop_no_run_of_completed (runner : Runner) (combos : List String) :
    ∀ fs s l, l ∈ s.completed → Event.run l ∉ (run_loop runner combos fs s).2.2 := by
  induction combos with
  | nil => intro fs s l _ h; simp [run_loop] at h
  | cons c rest ih =>
    intro fs s l hmem
    by_cases hc : c ∈ s.completed
    · simpa [run_loop, hc] using ih fs s l hmem
    · have hne : c ≠ l := fun h => hc (h ▸ hmem)
      simp only [run_loop, hc, if_false]
      intro h
      rcases List.mem_cons.mp h with h | h
      · exact Event.noConfusion h
      rcases List.mem_cons.mp h with h | h
      · exact hne (Event.run.inj h).symm
      rcases List.mem_cons.mp h with h | h
      · exact Event.noConfusion h
      · refine ih _ _ l ?_ h
        split
        · simpa using Or.inr hmem
        · simpa using hmem

/-- C1: on restart with `in_progress = L`, `L` not completed, and
`check_combo_complete` validating L's results, the resume step marks L
completed and clears `in_progress`, and the subsequent scheduling loop never
launches the runner for L, whatever the runner does and whatever the list of
combinations is. -/
theorem resume_idempotent (fs : FS) (s : DState) (L : String)
    (hip : s.in_progress = some L) (hnc : L ∉ s.completed)
    (hok : check_combo_complete (fs L) = true) :
    L ∈ (resume_step fs s).completed ∧ (resume_step fs s).in_progress = none ∧
      ∀ (runner : Runner) (combos : List String),
        Event.run L ∉ (run_loop runner combos fs (resume_step fs s)).2.2 := by
  have hres : resume_step fs s =
      { s with completed := L :: s.completed, in_progress := none } := by
    simp [resume_step, hip, hnc, hok]
  refine ⟨by simp [hres], by simp [hres], ?_⟩
  intro runner combos
  exact run_loop_no_run_of_completed runner combos fs _ L (by simp [hres])

/-- The label assigned to combination number `n` (`combo_<n>`). -/
def comboLabel (n : Nat) : String := "combo_" ++ toString n

/-- A concrete results directory holding valid metrics only for `combo_3`. -/
def sampleFS : FS := fun l =>
  if l = comboLabel 3 then some ⟨(5 : ℚ), 12, 3000, 9, 0, 0⟩ else none

/-- A concrete persisted state interrupted while running `combo_3`. -/
def sampleInterrupted : DState :=
  { completed := [comboLabel 0], in_progress := some (comboLabel 3), start_time := 0,
    last_update := some 1, total_combinations := 32, time_budget_minutes := 20 }

theorem resume_idempotent_witness :
    comboLabel 3 ∈ (resume_step sampleFS sampleInterrupted).completed ∧
      (resume_step sampleFS sampleInterrupted).in_progress = none ∧
      ∀ (runner : Runner) (combos : List String),
        Event.run (comboLabel 3) ∉
          (run_loop runner combos sampleFS (resume_step sampleFS sampleInterrupted)).2.2 :=
  resume_idempotent sampleFS sampleInterrupted (comboLabel 3) rfl (by decide) (by decide)

/-- C4: in every trace of the scheduling loop, each runner launch is
immediately preceded by a durable save whose snapshot has `in_progress` set
to the launched label, and is immediately followed by another durable save
once the run resolves. -/
theorem save_brackets_every_run (runner : Runner) (combos : List String) :
    ∀ fs s pre post l,
      (run_loop runner combos fs s).2.2 = pre ++ Event.run l :: post →
      (∃ s1 pre0, pre = pre0 ++ [Event.save s1] ∧ s1.in_progress = some l) ∧
      ∃ s2 post0, post = Event.save s2 :: post0 := by
  induction combos with
  | nil =>
    intro fs s pre post l h
    simp [run_loop] at h
  | cons c rest ih =>
    intro fs s pre post l h
    by_cases hc : c ∈ s.completed
    · exact ih fs s pre post l (by simpa [run_loop, hc] using h)
    · simp only [run_loop, hc, if_false] at h
      rcases pre with _ | ⟨e1, pre⟩
      · rw [List.nil_append] at h
        injection h with h1 _
        exact Event.noConfusion h1
      · rw [List.cons_append] at h
        injection h with h1 h2
        rcases pre with _ | ⟨e2, pre⟩
        · rw [List.nil_append] at h2
          injection h2 with h3 h4
          have hcl : c = l := Event.run.inj h3
          refine ⟨⟨{ s with in_progress := some c }, [], by simp [← h1], by simp [hcl]⟩,
            _, _, h4.symm⟩
        · rw [List.cons_append] at h2
          injection h2 with h3 h4
          rcases pre with _ | ⟨e3, pre⟩
          · rw [List.nil_append] at h4
            injection h4 with h5 _
            exact Event.noConfusion h5
          · rw [List.cons_append] at h4
            injection h4 with h5 h6
            obtain ⟨⟨s1', pre0, hpre, hip⟩, s2', post0, hpost⟩ := ih _ _ pre post l h6
            exact ⟨⟨s1', e1 :: e2 :: e3 :: pre0, by simp [hpre], hip⟩, s2', post0, hpost⟩

/-- A runner that succeeds without writing anything (used as witness input). -/
def idleRunner : Runner := fun _ fs => (true, fs)

/-- An empty results directory. -/
def emptyFS : FS := fun _ => none

theorem save_brackets_every_run_witness :
    (∃ s1 pre0, [Event.save { fresh_state 0 with in_progress := some (comboLabel 1) }] =
        pre0 ++ [Event.save s1] ∧ s1.in_progress = some (comboLabel 1)) ∧
      ∃ s2 post0, [Event.save (fresh_state 0)] = Event.save s2 :: post0 :=
  save_brackets_every_run idleRunner [comboLabel 1] emptyFS (fresh_state 0)
    [Event.save { fresh_state 0 with in_progress := some (comboLabel 1) }]
    [Event.save (fresh_state 0)] (comboLabel 1) (by decide)

/-- The persisted states of `main` as an inductive reachability relation:
start fresh (`load_state` with no file), stamp `last_update` on save, set
the time budget (line 322), promote a validated in-progress label on resume
(lines 345-350), set `in_progress` before a run of a not-yet-completed
label (lines 356-362), record a successful run (lines 370-374), or clear
`in_progress` after a failed run (lines 384-385). -/
inductive Reach : DState → Prop where
  | init (t : Nat) : Reach (fresh_state t)
  | save_stamp {s : DState} (t : Nat) : Reach s → Reach { s with last_update := some t }
  | set_budget {s : DState} (b : Nat) : Reach s →
      Reach { s with time_budget_minutes := b }
  | resume_promote {s : DState} {l : String} (m? : Option Metrics) : Reach s →
      s.in_progress = some l → l ∉ s.completed → check_combo_complete m? = true →
      Reach { s with completed := l :: s.completed, in_progress := none }
  | start_run {s : DState} (l : String) : Reach s → l ∉ s.completed →
      Reach { s with in_progress := some l }
  | finish_success {s : DState} {l : String} : Reach s → s.in_progress = some l →
      Reach { s with completed := l :: s.completed, in_progress := none }
  | finish_failure {s : DState} : Reach s → Reach { s with in_progress := none }

/-- C9: in every state the scheduler can reach (and persist), a label set in
`in_progress` is never also a member of `completed`. -/
theorem in_progress_never_completed (s : DState) (hs : Reach s) (l : String)
    (hip : s.in_progress = some l) : l ∉ s.completed := by
  induction hs with
  | init t => simp [fresh_state] at hip
  | save_stamp t _ ih => exact fun hm => ih (by simpa using hip) (by simpa using hm)
  | set_budget b _ ih => exact fun hm => ih (by simpa using hip) (by simpa using hm)
  | resume_promote _ _ _ _ _ _ => simp at hip
  | start_run l' _ hnc _ =>
    have : l' = l := by simpa using hip
    simpa [← this] using hnc
  | finish_success _ _ _ => simp at hip
  | finish_failure _ _ => simp at hip

theorem in_progress_never_completed_witness :
    comboLabel 0 ∉
      ({ fresh_state 0 with in_progress := some (comboLabel 0) } : DState).completed :=
  in_progress_never_completed _
    (Reach.start_run (comboLabel 0) (Reach.init 0) (by simp [fresh_state]))
    (comboLabel 0) rfl

/-- Primitive file operations `save_state` performs on the state file:
`open(STATE_FILE, "w")` truncates the file in place, then `json.dump`
writes the serialized state. -/
inductive FileOp where
  | truncate
  | writeAll (s : DState)
deriving DecidableEq

/-- Contents of the state file on disk: absent, truncated mid-save (not a
parseable state), or a fully written state. -/
inductive DiskFile where
  | absent
  | truncated
  | full (s : DState)
deriving DecidableEq

/-- Effect of one file operation on the on-disk state file. -/
def applyOp (_ : DiskFile) : FileOp → DiskFile
  | .truncate => .truncated
  | .writeAll s => .full s

/-- Disk contents after a sequence of file operations. -/
def runOps (d : DiskFile) (ops : List FileOp) : DiskFile := ops.foldl applyOp d

/-- The state `save_state` serializes: its input with `last_update` set to
the current time (line 70). -/
def save_payload (t : Nat) (s : DState) : DState := { s with last_update := some t }

/-- `save_state` (lines 68-72) as the sequence of file operations it
performs: truncate the state file in place, then write the payload.  There
is no temporary file and no rename in the source. -/
def save_state_ops (t : Nat) (s : DState) : List FileOp :=
  [FileOp.truncate, FileOp.writeAll (save_payload t s)]

/-- A sequence of file operations is atomic with respect to process death
for initial disk contents `d` when death after any prefix leaves either the
initial contents or the final contents — never a half-written file. -/
def atomicFor (ops : List FileOp) (d : DiskFile) : Prop :=
  ∀ i, runOps d (ops.take i) = d ∨ runOps d (ops.take i) = runOps d ops

/-- C2 fails as stated: death between the truncate and the write leaves a
truncated state file that is neither the previous state nor the new one. -/
theorem save_state_not_atomic :
    ¬ atomicFor (save_state_ops 1 sampleInterrupted) (DiskFile.full (fresh_state 0)) := by
  intro h
  rcases h 1 with h1 | h1 <;> exact absurd h1 (by decide)

/-- C2 amended: `save_state` rewrites the state file in place — a completed
save leaves exactly the new state (with `last_update` stamped), but the
intermediate point of every save leaves a truncated file, so the save is
not write-temp-then-rename atomic. -/
theorem save_state_in_place (d : DiskFile) (t : Nat) (s : DState) :
    runOps d (save_state_ops t s) = DiskFile.full (save_payload t s) ∧
      runOps d ((save_state_ops t s).take 1) = DiskFile.truncated :=
  ⟨rfl, rfl⟩

/-- `itertools.product` over per-knob value lists, first knob varying
slowest (Python's ordering). -/
def pyProduct : List (List Nat) → List (List Nat)
  | [] => [[]]
  | vs :: rest => vs.flatMap (fun v => (pyProduct rest).map (v :: ·))

/-- `int(binary_str, 2)`: the value of a list of binary digits read in
base 2.  `generate_combinations` builds `binary_str` by concatenating
`str(combo_dict[name])` in fixed key order; for digits 0/1 parsing that
string in base 2 is exactly this left fold. -/
def binValue (ds : List Nat) : Nat := ds.foldl (fun a d => 2 * a + d) 0

/-- `generate_combinations` (`build_dataset.py` lines 38-52): the Cartesian
product of the value lists in key order, each combination labeled
`combo_<n>` with `n` its digits read in base 2, paired with its
name-to-value mapping.  A pure function of `params`, so its output is
identical on every invocation. -/
def generate_combinations (params : List (String × List Nat)) :
    List (String × List (String × Nat)) :=
  (pyProduct (params.map Prod.snd)).map fun ds =>
    (comboLabel (binValue ds), (params.map Prod.fst).zip ds)

theorem mem_pyProduct_length (L : List (List Nat)) :
    ∀ ds ∈ pyProduct L, ds.length = L.length := by
  induction L with
  | nil => intro ds h; simp [pyProduct] at h; simp [h]
  | cons vs rest ih =>
    intro ds h
    simp only [pyProduct, List.mem_flatMap, List.mem_map] at h
    obtain ⟨v, _, ds', hds', rfl⟩ := h
    simp [ih ds' hds']

theorem binValue_foldl (ds : List Nat) :
    ∀ a, ds.foldl (fun a d => 2 * a + d) a = a * 2 ^ ds.length + binValue ds := by
  induction ds with
  | nil => intro a; simp [binValue]
  | cons d ds ih =>
    intro a
    have hd : binValue (d :: ds) = ds.foldl (fun a d => 2 * a + d) d := by
      simp [binValue]
    rw [List.foldl_cons, ih (2 * a + d), hd, ih d, List.length_cons]
    ring

theorem binValue_pyProduct_replicate (k : Nat) :
    (pyProduct (List.replicate k [0, 1])).map binValue = List.range (2 ^ k) := by
  induction k with
  | zero => rfl
  | succ k ih =>
    have hlen : ∀ ds ∈ pyProduct (List.replicate k [0, 1]), ds.length = k := by
      intro ds h
      simpa using mem_pyProduct_length _ ds h
    have h0 : ∀ ds ∈ pyProduct (List.replicate k [0, 1]),
        binValue (0 :: ds) = binValue ds := by
      intro ds _
      simp [binValue, List.foldl_cons]
    have h1 : ∀ ds ∈ pyProduct (List.replicate k [0, 1]),
        binValue (1 :: ds) = 2 ^ k + binValue ds := by
      intro ds hds
      have hfold := binValue_foldl ds 1
      have hone : binValue (1 :: ds) = ds.foldl (fun a d => 2 * a + d) 1 := by
        simp [binValue]
      rw [hone, hfold, hlen ds hds, one_mul]
    calc (pyProduct (List.replicate (k + 1) [0, 1])).map binValue
        = (pyProduct (List.replicate k [0, 1])).map (fun ds => binValue (0 :: ds)) ++
            (pyProduct (List.replicate k [0, 1])).map (fun ds => binValue (1 :: ds)) := by
          simp [List.replicate_succ, pyProduct, List.flatMap_cons, List.map_map,
            Function.comp_def]
      _ = (pyProduct (List.replicate k [0, 1])).map binValue ++
            ((pyProduct (List.replicate k [0, 1])).map binValue).map (2 ^ k + ·) := by
          rw [List.map_congr_left h0, List.map_congr_left h1, List.map_map,
            Function.comp_def]
      _ = List.range (2 ^ k) ++ (List.range (2 ^ k)).map (2 ^ k + ·) := by rw [ih]
      _ = List.range (2 ^ k + 2 ^ k) := (List.range_add (2 ^ k) (2 ^ k)).symm
      _ = List.range (2 ^ (k + 1)) := by ring_nf

/-- C8: for `k` knobs whose value lists are all `[0, 1]`, the generator
emits exactly the labels `combo_0` through `combo_(2^k - 1)`, in that
order, each exactly once: the label list is literally
`(List.range (2^k)).map comboLabel`. -/
theorem generate_combinations_binary_labels (params : List (String × List Nat))
    (hbin : ∀ p ∈ params, p.2 = [0, 1]) :
    (generate_combinations params).map Prod.fst =
      (List.range (2 ^ params.length)).map comboLabel := by
  have hrep : params.map Prod.snd = List.replicate params.length [0, 1] := by
    rw [List.eq_replicate_iff]
    refine ⟨by simp, ?_⟩
    intro b hb
    obtain ⟨p, hp, rfl⟩ := List.mem_map.mp hb
    exact hbin p hp
  rw [generate_combinations, hrep, List.map_map]
  have hcomp : (Prod.fst ∘ fun ds : List Nat =>
      (comboLabel (binValue ds), (params.map Prod.fst).zip ds)) =
      comboLabel ∘ binValue := rfl
  rw [hcomp, ← binValue_pyProduct_replicate, List.map_map]

theorem generate_combinations_binary_labels_witness :
    (generate_combinations
        [("AFL_FAST_CAL", [0, 1]), ("AFL_NO_ARITH", [0, 1])]).map Prod.fst =
      (List.range 4).map comboLabel :=
  generate_combinations_binary_labels
    [("AFL_FAST_CAL", [0, 1]), ("AFL_NO_ARITH", [0, 1])] (by decide)

/-! ### EZR active-learning selector (`ezr_driver.py`) -/

/-- The knob values of one candidate row (`row[:3]` in `ezr_driver.py`:
the grid rows carry three knob values followed by three unlabeled `"?"`
objective placeholders, and only the knob prefix is ever consulted). -/
abbrev Knobs := List Nat

/-- `round(n ** 0.5)`: the integer nearest to √n, counted as the number of
integers `m` with `m + 1/2 ≤ √n`, i.e. `(2m+1)² ≤ 4n`.  For natural `n`,
√n is never exactly halfway between integers (`4n` is even, `(2m+1)²` odd),
so Python's round-half-to-even never fires and nearest-integer is exact. -/
def pyRoundSqrt (n : Nat) : Nat :=
  ((List.range (n + 1)).filter (fun m => (2 * m + 1) ^ 2 ≤ 4 * n)).length

theorem pyRoundSqrt_le (n : Nat) : pyRoundSqrt n ≤ n := by
  have hfalse : ¬ ((2 * n + 1) ^ 2 ≤ 4 * n) := by ring_nf; omega
  rw [pyRoundSqrt, List.range_succ, List.filter_append]
  simp [hfalse]
  exact le_trans (List.length_filter_le _ _) (by simp)

/-- `n_best = max(1, round(len(sorted_rows) ** 0.5))`
(`ezr_driver.py` line 217). -/
def n_best (n : Nat) : Nat := max 1 (pyRoundSqrt n)

/-- Modelled from the spec: `distysort` lives in the vendored `ezr_lib`
package, which is outside `src/`.  Per the spec it ranks labeled examples
by distance-to-ideal-point over normalized objectives, smaller first;
modeled as a stable ascending sort by an abstract distance measure. -/
def distysort {α : Type} (dist : α → ℚ) (rows : List α) : List α :=
  rows.mergeSort (fun a b => decide (dist a ≤ dist b))

/-- The best/rest split of `ezr_select_next` (lines 214-219): sort the
labeled rows by distance to ideal, `best = sorted_rows[:n_best]`,
`rest = sorted_rows[n_best:]`. -/
def bestRestSplit {α : Type} (dist : α → ℚ) (rows : List α) : List α × List α :=
  ((distysort dist rows).take (n_best rows.length),
    (distysort dist rows).drop (n_best rows.length))

/-- `⌈√n⌉`, the group size the spec sentence asserts. -/
def ceilSqrt (n : Nat) : Nat :=
  ((List.range (n + 1)).filter (fun m => m ^ 2 < n)).length

/-- C5 is false as stated: with `n = 2` labeled examples the code's best
group is `sorted_rows[:max(1, round(2 ** 0.5))]` with exactly 1 element,
while `⌈√2⌉ = 2` — the split is not top-`⌈√n⌉`. -/
theorem best_split_not_ceil_sqrt :
    (bestRestSplit id ([0, 1] : List ℚ)).1.length = 1 ∧ ceilSqrt 2 = 2 ∧
      (bestRestSplit id ([0, 1] : List ℚ)).1.length ≠ ceilSqrt 2 := by
  have hlen : (distysort id ([0, 1] : List ℚ)).length = 2 :=
    (List.mergeSort_perm [0, 1] _).length_eq
  have h1 : (bestRestSplit id ([0, 1] : List ℚ)).1.length = 1 := by
    simp [bestRestSplit, hlen, n_best]
    decide
  exact ⟨h1, by decide, by rw [h1]; decide⟩

/-- C5 as amended: for n ≥ 2 labeled examples, the selector stably sorts
them ascending by the distance measure and splits off
`best = the top max(1, round(√n))` ranked examples (nearest-integer round,
not ⌈√n⌉), `rest = the remainder`. -/
theorem best_rest_split_spec {α : Type} (dist : α → ℚ) (rows : List α)
    (hn : 2 ≤ rows.length) :
    (bestRestSplit dist rows).1 ++ (bestRestSplit dist rows).2 = distysort dist rows ∧
      (distysort dist rows).Perm rows ∧
      (distysort dist rows).Pairwise (fun a b => dist a ≤ dist b) ∧
      (bestRestSplit dist rows).1.length = n_best rows.length := by
  have hperm : (distysort dist rows).Perm rows := List.mergeSort_perm rows _
  refine ⟨List.take_append_drop _ _, hperm, ?_, ?_⟩
  · have hs := @List.sorted_mergeSort α (fun a b => decide (dist a ≤ dist b))
      (fun a b c hab hbc => by
        simp only [decide_eq_true_eq] at *
        exact le_trans hab hbc)
      (fun a b => by simpa using le_total (dist a) (dist b)) rows
    exact hs.imp (fun h => by simpa using h)
  · have hlen : (distysort dist rows).length = rows.length := hperm.length_eq
    have hle : n_best rows.length ≤ rows.length := by
      have := pyRoundSqrt_le rows.length
      simp only [n_best]
      omega
    simp [bestRestSplit, List.length_take, hlen]
    omega

theorem best_rest_split_spec_witness :
    (bestRestSplit id ([5, 3] : List ℚ)).1 ++ (bestRestSplit id ([5, 3] : List ℚ)).2 =
        distysort id ([5, 3] : List ℚ) ∧
      (distysort id ([5, 3] : List ℚ)).Perm [5, 3] ∧
      (distysort id ([5, 3] : List ℚ)).Pairwise (fun a b => id a ≤ id b) ∧
      (bestRestSplit id ([5, 3] : List ℚ)).1.length = n_best 2 :=
  best_rest_split_spec id [5, 3] (by decide)

/-- `random.choice(lst)` on a nonempty list: a uniformly chosen element,
modeled by an arbitrary draw `k` reduced mod the length. -/
def pyChoice (l : List Knobs) (k : Nat) : Knobs := l.getD (k % l.length) []

theorem pyChoice_mem (l : List Knobs) (k : Nat) (h : l ≠ []) : pyChoice l k ∈ l := by
  have hlen : 0 < l.length := List.length_pos.mpr h
  have h2 : k % l.length < l.length := Nat.mod_lt _ hlen
  simp [pyChoice, List.getD_eq_getElem?_getD, List.getElem?_eq_getElem h2]

/-- `scores.sort(key=..., reverse=True); scores[0][1]`: Python's stable
descending sort followed by taking the head returns the first candidate
(in enumeration order) attaining the maximal score. -/
def pickTopScore (score : Knobs → ℚ) : List Knobs → Knobs
  | [] => []
  | x :: xs => xs.foldl (fun b c => if score b < score c then c else b) x

theorem pickTopScore_mem (score : Knobs → ℚ) (xs : List Knobs) :
    ∀ x, pickTopScore score (x :: xs) = xs.foldl
        (fun b c => if score b < score c then c else b) x ∧
      xs.foldl (fun b c => if score b < score c then c else b) x ∈ x :: xs := by
  induction xs with
  | nil => intro x; exact ⟨rfl, by simp⟩
  | cons c cs ih =>
    intro x
    refine ⟨rfl, ?_⟩
    rw [List.foldl_cons]
    rcases List.mem_cons.mp (ih (if score x < score c then c else x)).2 with h | h
    · rw [h]
      split
      · exact List.mem_cons_of_mem _ (List.mem_cons_self _ _)
      · exact List.mem_cons_self _ _
    · exact List.mem_cons_of_mem _ (List.mem_cons_of_mem _ h)

/-- `ezr_select_next` (`ezr_driver.py` lines 184-233): partition the
candidate grid into labeled rows (knob key in `evaluated`) and unlabeled
candidates, in grid order; return `None` on exhaustion; with fewer than two
labeled rows pick uniformly at random among the unlabeled; otherwise score
every unlabeled candidate with the best/rest likelihood ratio — abstracted
here as the `score` oracle, since the probability model lives in the
external `ezr_lib` — and return the top-scoring one. -/
def ezr_select_next (candidates : List Knobs) (evaluated : Knobs → Bool)
    (rand : Nat) (score : Knobs → ℚ) : Option Knobs :=
  let unlabeled := candidates.filter (fun c => !evaluated c)
  let labeled := candidates.filter (fun c => evaluated c)
  if unlabeled.isEmpty then none
  else if labeled.length < 2 then some (pyChoice unlabeled rand)
  else some (pickTopScore score unlabeled)

/-- The fallback in `main` (lines 404-416): when the selector's pick turns
out already evaluated, choose uniformly at random among the truly-unlabeled
candidates (`None` when none remain). -/
def fallback_pick (candidates : List Knobs) (evaluated : Knobs → Bool)
    (rand2 : Nat) : Option Knobs :=
  let unevaluated := candidates.filter (fun c => !evaluated c)
  if unevaluated.isEmpty then none else some (pyChoice unevaluated rand2)

/-- The per-round pick of `main` (lines 391-416): ask the selector, then
guard against an already-evaluated pick by falling back. -/
def main_pick (candidates : List Knobs) (evaluated : Knobs → Bool)
    (rand rand2 : Nat) (score : Knobs → ℚ) : Option Knobs :=
  match ezr_select_next candidates evaluated rand score with
  | none => none
  | some k => if evaluated k then fallback_pick candidates evaluated rand2 else some k

theorem mem_unlabeled_of_pick (candidates : List Knobs) (evaluated : Knobs → Bool)
    (c : Knobs) (h : c ∈ candidates.filter (fun c => !evaluated c)) :
    evaluated c = false ∧ c ∈ candidates := by
  have := List.mem_filter.mp h
  exact ⟨by simpa using this.2, this.1⟩

/-- C6: while an unlabeled candidate remains, `ezr_select_next` returns an
unlabeled member of the grid (never an already-labeled combination); the
driver's guard likewise: the fallback draws from the truly-unlabeled set,
so `main`'s per-round pick is always an unlabeled member of the grid. -/
theorem selector_never_repeats (candidates : List Knobs) (evaluated : Knobs → Bool)
    (rand rand2 : Nat) (score : Knobs → ℚ)
    (h : candidates.filter (fun c => !evaluated c) ≠ []) :
    (∃ c, ezr_select_next candidates evaluated rand score = some c ∧
        evaluated c = false ∧ c ∈ candidates) ∧
      (∃ c, fallback_pick candidates evaluated rand2 = some c ∧
        evaluated c = false ∧ c ∈ candidates) ∧
      ∃ c, main_pick candidates evaluated rand rand2 score = some c ∧
        evaluated c = false ∧ c ∈ candidates := by
  have hne : ¬ (candidates.filter (fun c => !evaluated c)).isEmpty := by
    simpa [List.isEmpty_iff] using h
  have hsel : ∃ c, ezr_select_next candidates evaluated rand score = some c ∧
      evaluated c = false ∧ c ∈ candidates := by
    by_cases hcnt : (candidates.filter (fun c => evaluated c)).length < 2
    · refine ⟨pyChoice (candidates.filter (fun c => !evaluated c)) rand, ?_, ?_⟩
      · simp [ezr_select_next, hne, hcnt]
      · exact mem_unlabeled_of_pick _ _ _ (pyChoice_mem _ _ h)
    · refine ⟨pickTopScore score (candidates.filter (fun c => !evaluated c)), ?_, ?_⟩
      · simp [ezr_select_next, hne, hcnt]
      · obtain ⟨x, xs, hx⟩ := List.exists_cons_of_ne_nil h
        rw [hx]
        refine mem_unlabeled_of_pick _ _ _ ?_
        rw [hx, pickTopScore]
        exact (pickTopScore_mem score xs x).2
  have hfb : ∃ c, fallback_pick candidates evaluated rand2 = some c ∧
      evaluated c = false ∧ c ∈ candidates := by
    refine ⟨pyChoice (candidates.filter (fun c => !evaluated c)) rand2, ?_, ?_⟩
    · simp [fallback_pick, hne]
    · exact mem_unlabeled_of_pick _ _ _ (pyChoice_mem _ _ h)
  refine ⟨hsel, hfb, ?_⟩
  obtain ⟨c, hc, hcf, hcm⟩ := hsel
  exact ⟨c, by simp [main_pick, hc, hcf], hcf, hcm⟩

/-- The three-knob candidate grid of the driver, restricted to two rows,
with the first row already evaluated (used as witness input). -/
def wGrid : List Knobs := [[0, 0, 50], [0, 0, 200]]

/-- Marks exactly `[0, 0, 50]` as labeled. -/
def wEvaluated : Knobs → Bool := fun c => c = [0, 0, 50]

theorem selector_never_repeats_witness :
    (∃ c, ezr_select_next wGrid wEvaluated 0 (fun _ => 0) = some c ∧
        wEvaluated c = false ∧ c ∈ wGrid) ∧
      (∃ c, fallback_pick wGrid wEvaluated 0 = some c ∧
        wEvaluated c = false ∧ c ∈ wGrid) ∧
      ∃ c, main_pick wGrid wEvaluated 0 0 (fun _ => 0) = some c ∧
        wEvaluated c = false ∧ c ∈ wGrid :=
  selector_never_repeats wGrid wEvaluated 0 0 (fun _ => 0) (by decide)

/-! ### Timeout salvage (`build_dataset.py` lines 131-163 and 222-245) -/

/-- A `fuzzer_stats` artifact: its `key : value` lines, each holding the
raw non-whitespace value token exactly as the salvage regex captures it —
a trailing `%` stays in the token. -/
abbrev StatsText := List (String × String)

/-- The inner `get(key, default="0")` of `extract_metrics_from_workdir`:
the first value bound to `key` in the artifact, else `"0"`. -/
def statsGet (text : StatsText) (key : String) : String :=
  match text.find? (fun kv => kv.1 == key) with
  | some kv => kv.2
  | none => "0"

/-- Decimal digit test. -/
def isDigitChar (c : Char) : Bool := '0' ≤ c && c ≤ '9'

/-- Value of a string of decimal digits. -/
def digitsVal (cs : List Char) : Nat :=
  cs.foldl (fun a c => 10 * a + (c.toNat - Char.toNat '0')) 0

/-- Python `int(s)` on the tokens appearing as `fuzzer_stats` values: an
unsigned decimal numeral parses; anything else (such as `12.5` or a
trailing `%`) raises `ValueError`, modeled as `none`. -/
def pyInt? (s : String) : Option Nat :=
  if s.toList ≠ [] ∧ s.toList.all isDigitChar then some (digitsVal s.toList) else none

/-- Split a character list at every dot. -/
def splitAtDots : List Char → List (List Char)
  | [] => [[]]
  | c :: rest =>
    if c = '.' then [] :: splitAtDots rest
    else
      match splitAtDots rest with
      | h :: t => (c :: h) :: t
      | [] => [[c]]

/-- Python `float(s)` on such tokens: plain decimal numerals with at most
one dot parse; any other character (such as the trailing `%` AFL writes on
`bitmap_cvg`) raises `ValueError`, modeled as `none`. -/
def pyFloat? (s : String) : Option ℚ :=
  match splitAtDots s.toList with
  | [a] =>
    if a ≠ [] ∧ a.all isDigitChar then some (digitsVal a) else none
  | [a, b] =>
    if (a ≠ [] ∨ b ≠ []) ∧ a.all isDigitChar ∧ b.all isDigitChar then
      some ((digitsVal a : ℚ) + (digitsVal b : ℚ) / (10 : ℚ) ^ b.length)
    else none
  | _ => none

/-- `extract_metrics_from_workdir` (lines 131-163): with no `fuzzer_stats`
file it returns having written nothing; otherwise it reads the first one,
fetches each key with default `"0"`, converts, and writes `metrics.json`
with both bug fields zero.  A `ValueError` from `float`/`int` propagates to
the caller's `except` and nothing is written; both no-write outcomes are
`none`. -/
def extract_metrics_from_workdir (statsFiles : List StatsText) : Option Metrics :=
  match statsFiles with
  | [] => none
  | text :: _ =>
    match pyFloat? (statsGet text ("bitmap_cvg")), pyInt? (statsGet text ("paths_total")),
        pyInt? (statsGet text ("execs_done")),
        pyFloat? (statsGet text ("execs_per_sec")) with
    | some cvg, some paths, some execs, some eps =>
      some { bitmap_cvg_pct := cvg, paths_total := paths, execs_done := execs,
             execs_per_sec := eps, bugs_triggered := 0, bugs_reached := 0 }
    | _, _, _, _ => none

/-- The `subprocess.TimeoutExpired` branch of `run_campaign`
(lines 222-245): best-effort salvage from the workdir's stats artifacts,
then the campaign resolves failed (`return False`).  First component: the
success flag; second: the `metrics.json` recorded for the label. -/
def run_campaign_on_timeout (statsFiles : List StatsText) : Bool × Option Metrics :=
  (false, extract_metrics_from_workdir statsFiles)

/-- An AFL `fuzzer_stats` artifact as AFL writes it, showing progress
(`paths_total = 5 > 0`) and the conventional trailing `%` on
`bitmap_cvg`. -/
def aflStats : StatsText :=
  [("bitmap_cvg", "19.21%"), ("paths_total", "5"), ("execs_done", "1000"),
    ("execs_per_sec", "12.5")]

/-- C7 fails on this input: the runner times out with a stats artifact
showing `paths_total = 5 > 0`, yet no salvaged metrics file is recorded —
`float("19.21%")` raises inside the salvage because the trailing `%` is
never stripped, the exception is swallowed by the caller, and nothing is
written (the outcome is still failed).  The sibling extractor in
`ezr_driver.py` (line 154) strips the `%`, and the spec's artifact contract
says the trailing `%` is stripped, so the missing strip is a slip in
`extract_metrics_from_workdir`. -/
theorem timeout_salvage_loses_percent_artifact :
    pyInt? (statsGet aflStats ("paths_total")) = some 5 ∧
      run_campaign_on_timeout [aflStats] = (false, none) := by
  constructor <;> rfl

end MagmaEzr
